import Mathlib

/-!
Verification of the undo/redo engine of the stingy personal-finance keeper.

The engine lives in `src/database/sqlite_impl.rs`:
* `impl_undo_operations` installs, per entity table, TEMP triggers that record,
  for every row-level write, a SQL statement reversing that write into the
  `undo_statements` table, anchored to `(SELECT MAX(id) FROM undo_steps)`;
* `begin_undo_step` inserts a row into `undo_steps` and truncates old steps
  with `DELETE FROM undo_steps WHERE id <= (SELECT MAX(id) FROM undo_steps) - ?`;
* `undo_last_step` suspends foreign keys, fetches the statements of the step
  with the maximal id, replays them in fetch order, and deletes the step;
* `get_last_undo_step` returns the name of the step with the maximal id;
* `initialize_undo` wipes the step table when the schema changed and garbage
  collects steps that have no statements;
* `impl_model_operations` provides the generic CRUD facade (`get_all`,
  `update`, `insert_or_get`, `delete`), keyed by the first field, with a
  UNIQUE constraint spanning all other fields;
* `perform_migrations` runs pending migrations, each in a transaction
  together with its `PRAGMA user_version` bump.

The embedding below models a row as an integer key (`id`, standing for the
SQLite rowid / first model field) plus a single value `fields` standing for
the tuple of all remaining columns, which the schema covers with a UNIQUE
constraint (assumption 3 of `impl_model_operations`, checked by the test
`transactions_unique_constraint`).  Captured statements are modelled as a
tagged variant holding exactly the data the generated SQL strings carry.
The migration scripts `./sql/migrations/*.sql` are not part of the source
tree; where their schema decides a behaviour (cascading deletion of a
step's statements when the step row is deleted) the model follows the
specification, as flagged at the definition.
-/

namespace Stingy

/-- One row of an entity table: `id` is the integer primary key (an alias of
the SQLite rowid), `fields` stands for the tuple of all non-key columns.
The schema puts a UNIQUE constraint across all non-key columns. -/
structure Row where
  id : Nat
  fields : Nat
deriving DecidableEq, Repr

/-- A record handed to the CRUD facade.  The key may be NULL (`none`); on
insert SQLite then assigns the next rowid (max existing rowid + 1). -/
structure Record where
  id : Option Nat
  fields : Nat
deriving DecidableEq, Repr

/-- The three entity tables the undo triggers are installed on. -/
inductive TableId
  | accounts
  | transactions
  | tagRules
deriving DecidableEq, Repr

/-- An entity table, kept in rowid order. -/
abbrev Table := List Row

/-- All entity tables of the store. -/
structure Store where
  accounts : Table
  transactions : Table
  tagRules : Table
deriving DecidableEq, Repr

def Store.tab (s : Store) : TableId → Table
  | .accounts => s.accounts
  | .transactions => s.transactions
  | .tagRules => s.tagRules

def Store.setTab (s : Store) (t : TableId) (tb : Table) : Store :=
  match t with
  | .accounts => { s with accounts := tb }
  | .transactions => { s with transactions := tb }
  | .tagRules => { s with tagRules := tb }

/-- A captured undo statement, as assembled by the TEMP triggers of
`impl_undo_operations`:
* insert of a row with rowid `k` captures `DELETE FROM t WHERE rowid = k`;
* update of a row with old image `r` captures
  `UPDATE t SET f1 = old.f1, ..., fn = old.fn` — the generated string has
  no WHERE clause, so on replay it addresses every row of the table;
* delete of a row with old image `r` captures
  `INSERT INTO t(f1, ..., fn) VALUES(old.f1, ..., old.fn)`. -/
inductive UndoStmt
  | deleteById (t : TableId) (k : Nat)
  | setAllRows (t : TableId) (r : Row)
  | insertRow (t : TableId) (r : Row)
deriving DecidableEq, Repr

/-- A row of the `undo_steps` table. -/
structure Step where
  id : Nat
  name : String
deriving DecidableEq, Repr

/-- The full persistent state: entity tables, undo bookkeeping tables, and
the session-wide `PRAGMA foreign_keys` switch. -/
structure DB where
  store : Store
  undo_steps : List Step
  undo_statements : List (Option Nat × UndoStmt)
  fkEnabled : Bool
deriving DecidableEq, Repr

/-- SELECT MAX(id) FROM undo_steps — NULL (`none`) on an empty table. -/
def maxStepId : List Step → Option Nat
  | [] => none
  | s :: r =>
    match maxStepId r with
    | none => some s.id
    | some m => some (max s.id m)

/-- SELECT name FROM undo_steps ORDER BY id DESC LIMIT 1 — the step carrying
the maximal id (on duplicate ids the result is whichever SQLite returns;
ids are unique in every reachable state). -/
def lastStep : List Step → Option Step
  | [] => none
  | s :: r =>
    match lastStep r with
    | none => some s
    | some t => if s.id < t.id then some t else some s

/-- A TEMP trigger fires: one statement is appended to `undo_statements`,
anchored to `(SELECT MAX(id) FROM undo_steps)` — NULL if no step exists. -/
def capture (db : DB) (stmt : UndoStmt) : DB :=
  { db with undo_statements := db.undo_statements ++ [(maxStepId db.undo_steps, stmt)] }

/-- PRAGMA foreign_keys = OFF — `SuspendForeignKeys::new`. -/
def suspendFK (db : DB) : DB := { db with fkEnabled := false }

/-- PRAGMA foreign_keys = ON — `Drop for SuspendForeignKeys`, run on every
exit path of the scope holding the guard. -/
def resumeFK (db : DB) : DB := { db with fkEnabled := true }

/-- Largest rowid present in a table (0 if empty); SQLite assigns max+1 to
an insert with a NULL key. -/
def Table.maxRowId (t : Table) : Nat := t.foldr (fun r m => max r.id m) 0

/-- Does the table hold a row with key `k`? -/
def hasId (t : Table) (k : Nat) : Bool := t.any (fun r => decide (r.id = k))

/-- Does the table hold a row whose non-key fields equal `v`?  Those columns
carry the UNIQUE constraint. -/
def hasFields (t : Table) (v : Nat) : Bool := t.any (fun r => decide (r.fields = v))

/-- Result type of `insert_or_get`, as built by its implementation in
`impl_model_operations`: `New` carries the row returned by
`INSERT ... RETURNING`, `Existing` carries the pre-existing row fetched by
the duplicate lookup. -/
inductive NewOrExisting
  | New (r : Row)
  | Existing (r : Row)
deriving DecidableEq, Repr

/-- The rowid a successful insert assigns: the bound value when the key is
given, the next rowid when the key is NULL. -/
def newRowId (tb : Table) (rec : Record) : Nat :=
  match rec.id with
  | some k => k
  | none => tb.maxRowId + 1

/-- Would `INSERT INTO t(...) VALUES (...)` abort with a UNIQUE-constraint
failure?  Either the bound key or the non-key fields may collide. -/
def insConflict (tb : Table) (rec : Record) : Bool :=
  (match rec.id with
   | some k => hasId tb k
   | none => false) || hasFields tb rec.fields

/-- CRUD facade `insert_or_get` (macro `impl_model_operations`):
`INSERT INTO t(...) VALUES (...) RETURNING ...`; if the insert fails with a
message starting in `UNIQUE constraint failed`, look the duplicate up with
`SELECT ... WHERE (non-key fields) IS (values)` and return it as
`Existing`; if even that finds nothing, fail.  A successful insert fires
the insert trigger, capturing a deletion keyed by the new rowid. -/
def insert_or_get (t : TableId) (rec : Record) (db : DB) :
    Except String NewOrExisting × DB :=
  let tb := db.store.tab t
  if insConflict tb rec then
    match tb.find? (fun r => decide (r.fields = rec.fields)) with
    | some r => (.ok (.Existing r), db)
    | none => (.error "values are not unique, but cannot find the duplicate.", db)
  else
    let newId := newRowId tb rec
    let r : Row := ⟨newId, rec.fields⟩
    let db2 := { db with store := db.store.setTab t (tb ++ [r]) }
    (.ok (.New r), capture db2 (.deleteById t newId))

/-- CRUD facade `update` (macro `impl_model_operations`):
`UPDATE t SET (all fields) = (values) WHERE first_field = key`.  A key of
NULL matches no row.  Setting the matched row to the new values aborts with
a constraint error if another row already carries the same non-key fields.
The update trigger fires once per updated row, capturing the complete
pre-update image. -/
def update (t : TableId) (rec : Record) (db : DB) : Except String Unit × DB :=
  let tb := db.store.tab t
  match rec.id with
  | none => (.ok (), db)
  | some k =>
    let matched := tb.filter (fun r => decide (r.id = k))
    if matched.isEmpty then (.ok (), db)
    else if tb.any (fun r => decide (r.id ≠ k ∧ r.fields = rec.fields)) then
      (.error "UNIQUE constraint failed", db)
    else
      let db2 := { db with
        store := db.store.setTab t
          (tb.map (fun r => if r.id = k then ⟨k, rec.fields⟩ else r)) }
      (.ok (), matched.foldl (fun d r => capture d (.setAllRows t r)) db2)

/-- CRUD facade `delete` (macro `impl_model_operations`):
`DELETE FROM t WHERE first_field = key`, returning the change count.  The
BEFORE DELETE trigger fires per deleted row, capturing a reinsertion of the
complete old image before the row disappears. -/
def delete (t : TableId) (rec : Record) (db : DB) : Except String Nat × DB :=
  let tb := db.store.tab t
  match rec.id with
  | none => (.ok 0, db)
  | some k =>
    let matched := tb.filter (fun r => decide (r.id = k))
    let db2 := matched.foldl (fun d r => capture d (.insertRow t r)) db
    (.ok matched.length,
      { db2 with store := db2.store.setTab t (tb.filter (fun r => decide (¬ r.id = k))) })

/-- Modelled from the spec: the migration scripts (`002-undo.sql`) that
declare `undo_steps` and `undo_statements` are not in the source tree; §4.3
and §4.4 of the specification state that deleting a step cascades the
deletion of its captured operations.  Deleting the step row with id `m`
therefore also removes every statement anchored to it. -/
def deleteStepCascade (m : Nat) (db : DB) : DB :=
  { db with
    undo_steps := db.undo_steps.filter (fun s => decide (¬ s.id = m)),
    undo_statements := db.undo_statements.filter (fun p => decide (¬ p.1 = some m)) }

/-- Replaying one captured statement executes it against the store.  The
TEMP triggers are still installed, so the replayed write itself captures a
new statement (anchored to the current maximal step id).  Constraint
checking follows SQLite: an insert conflicting on the key or on the UNIQUE
fields aborts; the captured update statement carries no WHERE clause, so it
sets every row of the table — with two or more rows this makes the rows
identical and aborts on the UNIQUE (and primary key) constraint, with
exactly one row it overwrites that row, with none it is a no-op. -/
def execStmt (stmt : UndoStmt) (db : DB) : Except String Unit × DB :=
  match stmt with
  | .deleteById t k =>
    let tb := db.store.tab t
    let matched := tb.filter (fun r => decide (r.id = k))
    let db2 := matched.foldl (fun d r => capture d (.insertRow t r)) db
    (.ok (), { db2 with store := db2.store.setTab t (tb.filter (fun r => decide (¬ r.id = k))) })
  | .insertRow t r =>
    let tb := db.store.tab t
    if hasId tb r.id || hasFields tb r.fields then
      (.error "UNIQUE constraint failed", db)
    else
      let db2 := { db with store := db.store.setTab t (tb ++ [r]) }
      (.ok (), capture db2 (.deleteById t r.id))
  | .setAllRows t r =>
    let tb := db.store.tab t
    match tb with
    | [] => (.ok (), db)
    | [old] =>
      let db2 := { db with store := db.store.setTab t [r] }
      (.ok (), capture db2 (.setAllRows t old))
    | _ => (.error "UNIQUE constraint failed", db)

/-- Replay a list of captured statements in fetch order, stopping at the
first failure (`?` on `conn.execute`); statements already executed stay
applied. -/
def replayList : List UndoStmt → DB → Except String Unit × DB
  | [], db => (.ok (), db)
  | s :: rest, db =>
    match execStmt s db with
    | (.ok _, db2) => replayList rest db2
    | (.error e, db2) => (.error e, db2)

/-- Body of `undo_last_step`, run while foreign keys are suspended: fetch
the statements whose `undo_step_id` equals `(SELECT MAX(id) FROM
undo_steps)` (a NULL subquery result matches nothing), bail if none, replay
them in fetch order, and on success delete the consumed step row. -/
def undoCore (db : DB) : Except String Unit × DB :=
  match maxStepId db.undo_steps with
  | none => (.error "there is nothing to undo.", db)
  | some m =>
    let rows := db.undo_statements.filter (fun p => decide (p.1 = some m))
    if rows.isEmpty then (.error "there is nothing to undo.", db)
    else
      match replayList (rows.map Prod.snd) db with
      | (.ok _, db2) => (.ok (), deleteStepCascade m db2)
      | (.error e, db2) => (.error e, db2)

/-- `undo_last_step`: acquire the foreign-key guard, run the replay, and
release the guard on every exit path (Rust `Drop`). -/
def undo_last_step (db : DB) : Except String Unit × DB :=
  let r := undoCore (suspendFK db)
  (r.1, resumeFK r.2)

/-- `get_last_undo_step`: name of the step with the maximal id, or the
nothing-to-undo error when no step exists. -/
def get_last_undo_step (db : DB) : Except String String :=
  match lastStep db.undo_steps with
  | none => .error "there is nothing to undo."
  | some s => .ok s.name

/-- `begin_undo_step`: `INSERT INTO undo_steps VALUES(NULL, name)` (SQLite
assigns rowid max+1), then `DELETE FROM undo_steps WHERE id <= (SELECT
MAX(id) FROM undo_steps) - max_undo_steps`.  The SQL cutoff can be
negative; step ids are at least 1, so natural-number truncation to 0 keeps
the same meaning.  Deleting a step cascades its statements (spec-modelled
schema, see `deleteStepCascade`). -/
def begin_undo_step (name : String) (maxUndoSteps : Nat) (db : DB) : DB :=
  let newId := (maxStepId db.undo_steps).getD 0 + 1
  let steps1 := db.undo_steps ++ [⟨newId, name⟩]
  let cutoff := newId - maxUndoSteps
  let deleted := steps1.filter (fun s => decide (s.id ≤ cutoff))
  { db with
    undo_steps := steps1.filter (fun s => decide (¬ s.id ≤ cutoff)),
    undo_statements := db.undo_statements.filter
      (fun p => ! deleted.any (fun s => decide (p.1 = some s.id))) }

/-- `initialize_undo`, run at store open after migrations: when the schema
changed, `DELETE FROM undo_steps` (cascading the statements anchored to the
deleted steps — spec-modelled schema); then garbage collect empty steps
with `DELETE FROM undo_steps WHERE id NOT IN (SELECT undo_step_id FROM
undo_statements)`.  SQL `NOT IN` is three-valued: a step is deleted only
when no anchor is NULL and its id is not among the anchors; a step whose id
appears among the anchors is always kept.  The deleted steps have no
anchored statements, so their cascade removes nothing. -/
def initialize_undo (fromScratch : Bool) (db : DB) : DB :=
  let db1 :=
    if fromScratch then
      { db with
        undo_steps := [],
        undo_statements := db.undo_statements.filter
          (fun p => ! db.undo_steps.any (fun s => decide (p.1 = some s.id))) }
    else db
  let anchors := db1.undo_statements.map Prod.fst
  { db1 with
    undo_steps := db1.undo_steps.filter
      (fun s => decide (¬ (anchors.all (fun a => a.isSome)
                           ∧ ¬ anchors.contains (some s.id)))) }

/-- Abstract content of the database a migration script acts on. -/
abbrev MigData := List String

/-- A migration script: applied inside a transaction, so it either yields
the fully transformed content or fails leaving the content unchanged. -/
abbrev Script := MigData → Except String MigData

/-- Persistent state seen by the migration runner: `PRAGMA user_version`
(0 on a fresh store) plus the content. -/
structure MigDB where
  version : Nat
  data : MigData

/-- The migration loop of `perform_migrations`: starting at index
`prev_version + 1`, run each remaining migration inside a transaction
together with its version bump; on failure roll the transaction back and
stop, leaving the version at the last fully-committed migration. -/
def migRun : List (String × Script) → Nat → MigData → Except String Unit × Nat × MigData
  | [], v, d => (.ok (), v, d)
  | (nm, script) :: rest, v, d =>
    match script d with
    | .error e => (.error ("migration " ++ nm ++ " failed (" ++ e ++ ")"), v, d)
    | .ok d2 => migRun rest (v + 1) d2

/-- `perform_migrations`: read `PRAGMA user_version`, run the pending
migrations, and report whether any migration ran
(`prev_version < migrations.len() - 1`, natural subtraction). -/
def perform_migrations (migs : List (String × Script)) (db : MigDB) :
    Except String Bool × MigDB :=
  match migRun (migs.drop (db.version + 1)) db.version db.data with
  | (.ok _, v2, d2) => (.ok (decide (db.version < migs.length - 1)), ⟨v2, d2⟩)
  | (.error e, v2, d2) => (.error e, ⟨v2, d2⟩)

/-- Sequential application of a list of migration scripts, failing at the
first failing script.  Used to state that the persisted content always
equals the initial content transformed by exactly the fully-committed
ascending prefix of pending migrations. -/
def applyList : List (String × Script) → MigData → Except String MigData
  | [], d => .ok d
  | (_, s) :: rest, d =>
    match s d with
    | .error e => .error e
    | .ok d2 => applyList rest d2

/-! Concrete stores and migration lists used as witness and
counterexample inputs. -/

/-- Store with one step whose only operation is the inverse of an insert,
used as the concrete witness input for C3. -/
def wdbC3 : DB :=
  { store := { accounts := [⟨1, 10⟩], transactions := [], tagRules := [] },
    undo_steps := [⟨1, "ins"⟩],
    undo_statements := [(some 1, .deleteById .accounts 1)],
    fkEnabled := true }

/-- Store whose newest step (id 2) has no captured operations while an
older step (id 1) has one, used as the concrete witness input for C10. -/
def wdbC10 : DB :=
  { store := { accounts := [⟨1, 10⟩], transactions := [], tagRules := [] },
    undo_steps := [⟨1, "old"⟩, ⟨2, "empty"⟩],
    undo_statements := [(some 1, .deleteById .accounts 1)],
    fkEnabled := true }

/-- Entity store with one account row, used as the concrete witness input
for C5. -/
def wdbC5 : DB :=
  { store := { accounts := [⟨1, 10⟩], transactions := [], tagRules := [] },
    undo_steps := [⟨1, "s"⟩], undo_statements := [], fkEnabled := true }

/-- Entity store with two account rows and one open step, used as the
concrete witness input for C6. -/
def wdbC6 : DB :=
  { store := { accounts := [⟨1, 10⟩, ⟨2, 20⟩], transactions := [], tagRules := [] },
    undo_steps := [⟨1, "s"⟩], undo_statements := [], fkEnabled := true }

/-- Step table with a gap in the ids (steps 2–4 were garbage collected),
both remaining steps carrying one operation; input of the C4
counterexample. -/
def cdbC4 : DB :=
  { store := { accounts := [], transactions := [], tagRules := [] },
    undo_steps := [⟨1, "a"⟩, ⟨5, "b"⟩],
    undo_statements := [(some 1, .deleteById .accounts 7), (some 5, .deleteById .accounts 8)],
    fkEnabled := true }

/-- Store with a populated step (id 1) and an empty step (id 2), the
concrete input of the C7 witness. -/
def wdbC7 : DB :=
  { store := { accounts := [], transactions := [], tagRules := [] },
    undo_steps := [⟨1, "w"⟩, ⟨2, "r"⟩],
    undo_statements := [(some 1, .deleteById .accounts 3)],
    fkEnabled := true }

/-- Step table holding only one empty step; input of the C7
counterexample. -/
def cdbC7 : DB :=
  { store := { accounts := [], transactions := [], tagRules := [] },
    undo_steps := [⟨1, "empty"⟩],
    undo_statements := [],
    fkEnabled := true }

/-- Migration list whose third entry fails, used as the concrete witness
input for C8 (index 0 is the sentinel, as in `MIGRATIONS`). -/
def migsW : List (String × Script) :=
  [("sentinel", fun d => .ok d),
   ("one", fun d => .ok ("one" :: d)),
   ("two", fun _ => .error "boom")]

/-- Fresh store for the C8 witness (`user_version` 0). -/
def migdbW : MigDB := ⟨0, []⟩

/-- Two account rows; the state just before `begin_step` in the failing
round-trip scenario of C1 (the scenario of the repository test
`undo_account_select`: update one row of a table holding another row). -/
def rdbC1 : DB :=
  { store := { accounts := [⟨1, 10⟩, ⟨2, 20⟩], transactions := [], tagRules := [] },
    undo_steps := [], undo_statements := [], fkEnabled := true }

/-- The state after `begin_step("cmd"); update(accounts, key 1, new fields 11)`. -/
def rdbC1b : DB := (update .accounts ⟨some 1, 11⟩ (begin_undo_step "cmd" 128 rdbC1)).2

/-- Three account rows with one open step; input of the C2 evaluation. -/
def rdbC2 : DB :=
  { store := { accounts := [⟨1, 30⟩, ⟨2, 40⟩, ⟨3, 50⟩], transactions := [], tagRules := [] },
    undo_steps := [⟨1, "upd"⟩], undo_statements := [], fkEnabled := true }

/-! Helper lemmas about the undo bookkeeping. -/

theorem maxStepId_le_of_mem {l : List Step} {m : Nat} (h : maxStepId l = some m)
    {t : Step} (ht : t ∈ l) : t.id ≤ m := by
  induction l generalizing m with
  | nil => cases ht
  | cons a r ih =>
    simp only [maxStepId] at h
    rcases List.mem_cons.mp ht with rfl | htr
    · cases hr : maxStepId r with
      | none => rw [hr] at h; exact (Option.some_inj.mp h).le
      | some k =>
        rw [hr] at h
        exact (Option.some_inj.mp h) ▸ Nat.le_max_left _ _
    · cases hr : maxStepId r with
      | none =>
        rw [hr] at h
        cases (show r = [] by cases r with
          | nil => rfl
          | cons b r2 => simp [maxStepId] at hr; cases hb : maxStepId r2 <;> rw [hb] at hr <;> cases hr) ▸ htr
      | some k =>
        rw [hr] at h
        exact le_trans (ih hr htr) ((Option.some_inj.mp h) ▸ Nat.le_max_right _ _)

theorem maxStepId_mem {l : List Step} {m : Nat} (h : maxStepId l = some m) :
    ∃ t ∈ l, t.id = m := by
  induction l generalizing m with
  | nil => cases h
  | cons a r ih =>
    simp only [maxStepId] at h
    cases hr : maxStepId r with
    | none =>
      rw [hr] at h
      exact ⟨a, List.mem_cons_self _ _, Option.some_inj.mp h⟩
    | some k =>
      rw [hr] at h
      have hm : m = max a.id k := (Option.some_inj.mp h).symm
      rcases Nat.le_total a.id k with hle | hle
      · rcases ih hr with ⟨t, htr, htk⟩
        exact ⟨t, List.mem_cons_of_mem _ htr, by rw [htk, hm, Nat.max_eq_right hle]⟩
      · exact ⟨a, List.mem_cons_self _ _, by rw [hm, Nat.max_eq_left hle]⟩

theorem maxStepId_isSome_of_mem {l : List Step} {t : Step} (ht : t ∈ l) :
    ∃ m, maxStepId l = some m := by
  cases l with
  | nil => cases ht
  | cons a r =>
    simp only [maxStepId]
    cases maxStepId r with
    | none => exact ⟨a.id, rfl⟩
    | some k => exact ⟨max a.id k, rfl⟩

theorem lastStep_mem {l : List Step} {t : Step} (h : lastStep l = some t) : t ∈ l := by
  induction l generalizing t with
  | nil => cases h
  | cons a r ih =>
    simp only [lastStep] at h
    cases hr : lastStep r with
    | none => rw [hr] at h; exact (Option.some_inj.mp h) ▸ List.mem_cons_self _ _
    | some u =>
      rw [hr] at h
      by_cases hlt : a.id < u.id
      · simp only [hlt, if_true] at h
        exact List.mem_cons_of_mem _ ((Option.some_inj.mp h) ▸ ih hr)
      · simp only [hlt, if_false] at h
        exact (Option.some_inj.mp h) ▸ List.mem_cons_self _ _

theorem lastStep_eq {l : List Step} {s : Step} (hs : s ∈ l)
    (hmax : ∀ t ∈ l, ¬ t = s → t.id < s.id) : lastStep l = some s := by
  induction l with
  | nil => cases hs
  | cons a r ih =>
    rcases List.mem_cons.mp hs with rfl | hsr
    · cases hr : lastStep r with
      | none => simp [lastStep, hr]
      | some u =>
        have hu : u ∈ r := lastStep_mem hr
        by_cases hus : u = s
        · simp [lastStep, hr, hus]
        · have hlt := hmax u (List.mem_cons_of_mem _ hu) hus
          simp [lastStep, hr, Nat.not_lt.mpr (Nat.le_of_lt hlt)]
    · by_cases has : a = s
      · subst has
        have hlr : lastStep r = some a :=
          ih hsr (fun t ht hne => hmax t (List.mem_cons_of_mem _ ht) hne)
        simp [lastStep, hlr]
      · have hlr : lastStep r = some s :=
          ih hsr (fun t ht hne => hmax t (List.mem_cons_of_mem _ ht) hne)
        have ha := hmax a (List.mem_cons_self _ _) has
        simp [lastStep, hlr, ha]

theorem capture_steps (db : DB) (stmt : UndoStmt) :
    (capture db stmt).undo_steps = db.undo_steps := rfl

theorem foldl_capture_steps (f : Row → UndoStmt) (l : List Row) (db : DB) :
    (l.foldl (fun d r => capture d (f r)) db).undo_steps = db.undo_steps := by
  induction l generalizing db with
  | nil => rfl
  | cons r rest ih => simpa [List.foldl] using ih (capture db (f r))

theorem foldl_capture_stmts (f : Row → UndoStmt) (l : List Row) (db : DB) :
    (l.foldl (fun d r => capture d (f r)) db).undo_statements
      = db.undo_statements ++ l.map (fun r => (maxStepId db.undo_steps, f r)) := by
  induction l generalizing db with
  | nil => simp [List.foldl]
  | cons r rest ih =>
    simp only [List.foldl, List.map]
    rw [ih (capture db (f r))]
    simp [capture, List.append_assoc]

theorem foldl_capture_store (f : Row → UndoStmt) (l : List Row) (db : DB) :
    (l.foldl (fun d r => capture d (f r)) db).store = db.store := by
  induction l generalizing db with
  | nil => rfl
  | cons r rest ih => simpa [List.foldl] using ih (capture db (f r))

theorem execStmt_steps (stmt : UndoStmt) (db : DB) :
    (execStmt stmt db).2.undo_steps = db.undo_steps := by
  cases stmt with
  | deleteById t k => simp [execStmt, foldl_capture_steps]
  | insertRow t r =>
    simp only [execStmt]
    by_cases h : hasId (db.store.tab t) r.id || hasFields (db.store.tab t) r.fields
    · simp [h]
    · simp [h, capture]
  | setAllRows t r =>
    simp only [execStmt]
    cases htb : db.store.tab t with
    | nil => simp
    | cons a rest => cases rest <;> simp [capture]

theorem replayList_steps (l : List UndoStmt) (db : DB) :
    (replayList l db).2.undo_steps = db.undo_steps := by
  induction l generalizing db with
  | nil => rfl
  | cons s rest ih =>
    simp only [replayList]
    rcases hx : execStmt s db with ⟨res, db2⟩
    have hst : db2.undo_steps = db.undo_steps := by
      have := execStmt_steps s db
      rw [hx] at this
      exact this
    cases res with
    | ok u => cases u; simpa [hst] using ih db2
    | error e => simpa using hst

theorem undoCore_ok (db : DB) (m : Nat) (hm : maxStepId db.undo_steps = some m)
    (h : (undoCore db).1 = .ok ()) :
    (∀ s ∈ (undoCore db).2.undo_steps, ¬ s.id = m) ∧
    (∀ p ∈ (undoCore db).2.undo_statements, ¬ p.1 = some m) := by
  simp only [undoCore, hm] at h ⊢
  by_cases hrow : (db.undo_statements.filter (fun p => decide (p.1 = some m))).isEmpty
  · simp [hrow] at h
  · simp only [hrow, Bool.false_eq_true, if_false] at h ⊢
    rcases hrep : replayList ((db.undo_statements.filter
        (fun p => decide (p.1 = some m))).map Prod.snd) db with ⟨res, db2⟩
    rw [hrep] at h ⊢
    cases res with
    | error e => simp at h
    | ok u =>
      cases u
      simp [deleteStepCascade, List.mem_filter]

theorem undoCore_err (db : DB) (e : String) (h : (undoCore db).1 = .error e) :
    (undoCore db).2.undo_steps = db.undo_steps := by
  simp only [undoCore] at h ⊢
  cases hm : maxStepId db.undo_steps with
  | none => simp [hm]
  | some m =>
    simp only [hm] at h ⊢
    by_cases hrow : (db.undo_statements.filter (fun p => decide (p.1 = some m))).isEmpty
    · simp [hrow]
    · simp only [hrow, Bool.false_eq_true, if_false] at h ⊢
      rcases hrep : replayList ((db.undo_statements.filter
          (fun p => decide (p.1 = some m))).map Prod.snd) db with ⟨res, db2⟩
      rw [hrep] at h ⊢
      have hst : db2.undo_steps = db.undo_steps := by
        have := replayList_steps ((db.undo_statements.filter
            (fun p => decide (p.1 = some m))).map Prod.snd) db
        rw [hrep] at this
        exact this
      cases res with
      | error e2 => simpa using hst
      | ok u => cases u; simp at h

/-- C3: undoing the newest step is all-or-nothing on the bookkeeping.  If
`undo_last_step` returns success, the step carrying the maximal id and
every captured operation anchored to it are gone; if it returns an error
(either nothing to undo, or a replayed statement failed), the `undo_steps`
table is untouched, so the undo can be retried. -/
theorem claim_C3_undo_bookkeeping_all_or_nothing (db : DB) :
    (∀ m, maxStepId db.undo_steps = some m →
      (undo_last_step db).1 = .ok () →
      (∀ s ∈ (undo_last_step db).2.undo_steps, ¬ s.id = m) ∧
      (∀ p ∈ (undo_last_step db).2.undo_statements, ¬ p.1 = some m)) ∧
    (∀ e, (undo_last_step db).1 = .error e →
      (undo_last_step db).2.undo_steps = db.undo_steps) := by
  constructor
  · intro m hm hok
    exact undoCore_ok (suspendFK db) m hm hok
  · intro e herr
    exact undoCore_err (suspendFK db) e herr

/-- Witness for C3 at a concrete store where the undo succeeds. -/
theorem claim_C3_witness :
    (∀ s ∈ (undo_last_step wdbC3).2.undo_steps, ¬ s.id = 1) ∧
    (∀ p ∈ (undo_last_step wdbC3).2.undo_statements, ¬ p.1 = some 1) :=
  (claim_C3_undo_bookkeeping_all_or_nothing wdbC3).1 1 (by rfl) (by rfl)

/-- C9: `undo_last_step` suspends foreign-key enforcement on entry
(`suspendFK`, the guard acquisition) and the state it returns has
enforcement re-enabled on every exit path — success, nothing to undo, or a
replay failure — because the guard is released unconditionally. -/
theorem claim_C9_fk_guard_restored (db : DB) :
    (undo_last_step db).2.fkEnabled = true ∧ (suspendFK db).fkEnabled = false :=
  ⟨rfl, rfl⟩

/-- C10: when the step with the maximal id exists but has no captured
operations, `get_last_undo_step` succeeds with that step's name while
`undo_last_step` fails with the nothing-to-undo error and changes nothing
except the temporarily toggled foreign-key switch — the two public
operations disagree, and no older step can be undone in this state. -/
theorem claim_C10_empty_top_step_disagreement (db : DB) (s : Step)
    (hs : s ∈ db.undo_steps)
    (hmax : ∀ t ∈ db.undo_steps, ¬ t = s → t.id < s.id)
    (hempty : ∀ p ∈ db.undo_statements, ¬ p.1 = some s.id) :
    get_last_undo_step db = .ok s.name
    ∧ (undo_last_step db).1 = .error "there is nothing to undo."
    ∧ (undo_last_step db).2 = { db with fkEnabled := true } := by
  have hlast : lastStep db.undo_steps = some s := lastStep_eq hs hmax
  have hmaxid : maxStepId db.undo_steps = some s.id := by
    rcases maxStepId_isSome_of_mem hs with ⟨m, hm⟩
    rcases maxStepId_mem hm with ⟨t, htl, hti⟩
    have hle : m ≤ s.id := by
      by_cases hts : t = s
      · exact hti ▸ hts ▸ Nat.le_refl _
      · exact hti ▸ Nat.le_of_lt (hmax t htl hts)
    have hge : s.id ≤ m := maxStepId_le_of_mem hm hs
    rw [hm, Nat.le_antisymm hle hge]
  have hrows : db.undo_statements.filter (fun p => decide (p.1 = some s.id)) = [] := by
    rw [List.filter_eq_nil_iff]
    intro p hp
    simpa using hempty p hp
  refine ⟨?_, ?_, ?_⟩
  · simp [get_last_undo_step, hlast]
  · show (undoCore (suspendFK db)).1 = _
    simp [undoCore, hmaxid, hrows, suspendFK]
  · show (resumeFK (undoCore (suspendFK db)).2) = _
    simp [undoCore, hmaxid, hrows, suspendFK, resumeFK]

theorem Store.tab_setTab (s : Store) (t : TableId) (tb : Table) :
    (s.setTab t tb).tab t = tb := by
  cases t <;> rfl

theorem insert_or_get_fresh (db : DB) (t : TableId) (rec : Record)
    (hcond : insConflict (db.store.tab t) rec = false) :
    insert_or_get t rec db =
      (.ok (.New ⟨newRowId (db.store.tab t) rec, rec.fields⟩),
       capture
         { db with store := db.store.setTab t (db.store.tab t ++
             [⟨newRowId (db.store.tab t) rec, rec.fields⟩]) }
         (.deleteById t (newRowId (db.store.tab t) rec))) := by
  simp only [insert_or_get, hcond, Bool.false_eq_true, if_false]

/-- C5: a record whose insertion would violate the UNIQUE constraint over
the non-key fields does not make `insert_or_get` fail — the duplicate is
looked up and returned as `Existing`, carrying the pre-existing row; a
record without any conflict is inserted and returned as `New`. -/
theorem claim_C5_insert_or_get_conflict_not_error (db : DB) (t : TableId) (rec : Record) :
    ((∃ r, r ∈ db.store.tab t ∧ r.fields = rec.fields) →
      ∃ r db2, insert_or_get t rec db = (.ok (.Existing r), db2)
        ∧ r ∈ db.store.tab t ∧ r.fields = rec.fields) ∧
    ((∀ r ∈ db.store.tab t, ¬ r.fields = rec.fields) →
     (∀ k, rec.id = some k → ∀ r ∈ db.store.tab t, ¬ r.id = k) →
      ∃ r db2, insert_or_get t rec db = (.ok (.New r), db2)
        ∧ r.fields = rec.fields ∧ r ∈ db2.store.tab t) := by
  constructor
  · rintro ⟨r, hr, hf⟩
    have hff : hasFields (db.store.tab t) rec.fields = true :=
      List.any_eq_true.mpr ⟨r, hr, by simp [hf]⟩
    have hfind : ∃ r0, (db.store.tab t).find?
        (fun x => decide (x.fields = rec.fields)) = some r0 := by
      have : ((db.store.tab t).find? (fun x => decide (x.fields = rec.fields))).isSome := by
        rw [List.find?_isSome]
        exact ⟨r, hr, by simp [hf]⟩
      exact Option.isSome_iff_exists.mp this
    rcases hfind with ⟨r0, hr0⟩
    refine ⟨r0, db, ?_, List.mem_of_find?_eq_some hr0, by simpa using List.find?_some hr0⟩
    simp [insert_or_get, insConflict, hff, hr0]
  · intro hnf hnk
    have hff : hasFields (db.store.tab t) rec.fields = false := by
      simp only [hasFields]
      rw [List.any_eq_false]
      intro r hr
      simpa using hnf r hr
    have hcond : insConflict (db.store.tab t) rec = false := by
      simp only [insConflict, hff, Bool.or_false]
      cases hk : rec.id with
      | none => rfl
      | some k =>
        simp only [hasId]
        rw [List.any_eq_false]
        intro r hr
        simpa using hnk k hk r hr
    have hred := insert_or_get_fresh db t rec hcond
    refine ⟨⟨newRowId (db.store.tab t) rec, rec.fields⟩, _, hred, rfl, ?_⟩
    have hsto : (capture
        { db with store := db.store.setTab t (db.store.tab t ++
            [⟨newRowId (db.store.tab t) rec, rec.fields⟩]) }
        (.deleteById t (newRowId (db.store.tab t) rec))).store.tab t
        = db.store.tab t ++ [⟨newRowId (db.store.tab t) rec, rec.fields⟩] := by
      simp [capture, Store.tab_setTab]
    rw [hsto]
    exact List.mem_append_right _ (List.mem_singleton.mpr rfl)

/-- Witness for C5: a conflicting insert resolves to `Existing` carrying
the duplicate row, and a fresh insert resolves to `New`. -/
theorem claim_C5_witness :
    (∃ r db2, insert_or_get .accounts ⟨none, 10⟩ wdbC5 = (.ok (.Existing r), db2)
      ∧ r ∈ wdbC5.store.tab .accounts ∧ r.fields = (10 : Nat)) ∧
    (∃ r db2, insert_or_get .accounts ⟨none, 99⟩ wdbC5 = (.ok (.New r), db2)
      ∧ r.fields = (99 : Nat) ∧ r ∈ db2.store.tab .accounts) :=
  ⟨(claim_C5_insert_or_get_conflict_not_error wdbC5 .accounts ⟨none, 10⟩).1
      ⟨⟨1, 10⟩, by decide, rfl⟩,
   (claim_C5_insert_or_get_conflict_not_error wdbC5 .accounts ⟨none, 99⟩).2
      (by decide) (by decide)⟩

/-- C6: while a step is open (the step with the maximal id `m`), every
row-level write actually performed through the CRUD facade appends exactly
one captured operation anchored to `m`: a fresh insert captures a deletion
keyed by the new row's id, an update of the single row with key `k`
captures the complete pre-update image, a delete of the single row with
key `k` captures a reinsertion of the complete pre-delete image; and an
insert resolved as `Existing` by the duplicate lookup captures nothing. -/
theorem claim_C6_one_capture_per_write (db : DB) (t : TableId) (rec : Record)
    (m : Nat) (hm : maxStepId db.undo_steps = some m) :
    (∀ r res, insert_or_get t rec db = (.ok (.New r), res) →
      res.undo_statements = db.undo_statements ++ [(some m, .deleteById t r.id)]) ∧
    (∀ r res, insert_or_get t rec db = (.ok (.Existing r), res) →
      res.undo_statements = db.undo_statements) ∧
    (∀ k old res, rec.id = some k →
      (db.store.tab t).filter (fun r => decide (r.id = k)) = [old] →
      update t rec db = (.ok (), res) →
      res.undo_statements = db.undo_statements ++ [(some m, .setAllRows t old)]) ∧
    (∀ k old, rec.id = some k →
      (db.store.tab t).filter (fun r => decide (r.id = k)) = [old] →
      (delete t rec db).1 = .ok 1 ∧
      (delete t rec db).2.undo_statements
        = db.undo_statements ++ [(some m, .insertRow t old)]) := by
  refine ⟨?_, ?_, ?_, ?_⟩
  · intro r res h
    simp only [insert_or_get] at h
    split at h
    · split at h <;> simp at h
    · rw [Prod.mk.injEq] at h
      obtain ⟨h1, h2⟩ := h
      simp only [Except.ok.injEq, NewOrExisting.New.injEq] at h1
      rw [← h2, ← h1]
      simp [capture, hm]
  · intro r res h
    simp only [insert_or_get] at h
    split at h
    · split at h
      · rw [Prod.mk.injEq] at h
        rw [← h.2]
      · simp at h
    · rw [Prod.mk.injEq] at h
      obtain ⟨h1, _⟩ := h
      simp at h1
  · intro k old res hk hfil h
    simp only [update, hk, hfil, List.isEmpty_cons, Bool.false_eq_true, if_false] at h
    by_cases hc : (db.store.tab t).any (fun r => decide (r.id ≠ k ∧ r.fields = rec.fields)) = true
    · simp only [hc, if_true] at h
      rw [Prod.mk.injEq] at h
      obtain ⟨h1, _⟩ := h
      simp at h1
    · simp only [hc, Bool.false_eq_true, if_false] at h
      rw [Prod.mk.injEq] at h
      obtain ⟨_, h2⟩ := h
      rw [← h2]
      simp [List.foldl, capture, hm]
  · intro k old hk hfil
    constructor
    · simp [delete, hk, hfil]
    · simp [delete, hk, hfil, List.foldl, capture, hm]

/-- Witness for C6: each facade write on a concrete store appends exactly
the stated capture, and a duplicate-resolved insert appends none. -/
theorem claim_C6_witness :
    ((insert_or_get .accounts ⟨none, 30⟩ wdbC6).2.undo_statements
      = wdbC6.undo_statements ++ [(some 1, .deleteById .accounts 3)]) ∧
    ((insert_or_get .accounts ⟨none, 10⟩ wdbC6).2.undo_statements
      = wdbC6.undo_statements) ∧
    ((update .accounts ⟨some 1, 11⟩ wdbC6).2.undo_statements
      = wdbC6.undo_statements ++ [(some 1, .setAllRows .accounts ⟨1, 10⟩)]) ∧
    ((delete .accounts ⟨some 2, 20⟩ wdbC6).1 = .ok 1 ∧
     (delete .accounts ⟨some 2, 20⟩ wdbC6).2.undo_statements
      = wdbC6.undo_statements ++ [(some 1, .insertRow .accounts ⟨2, 20⟩)]) :=
  ⟨(claim_C6_one_capture_per_write wdbC6 .accounts ⟨none, 30⟩ 1 rfl).1
      ⟨3, 30⟩ _ rfl,
   (claim_C6_one_capture_per_write wdbC6 .accounts ⟨none, 10⟩ 1 rfl).2.1
      ⟨1, 10⟩ _ rfl,
   (claim_C6_one_capture_per_write wdbC6 .accounts ⟨some 1, 11⟩ 1 rfl).2.2.1
      1 ⟨1, 10⟩ _ rfl rfl rfl,
   (claim_C6_one_capture_per_write wdbC6 .accounts ⟨some 2, 20⟩ 1 rfl).2.2.2
      2 ⟨2, 20⟩ rfl rfl⟩

theorem le_maxStepId_getD {l : List Step} {s : Step} (hs : s ∈ l) :
    s.id ≤ (maxStepId l).getD 0 := by
  rcases maxStepId_isSome_of_mem hs with ⟨m, hm⟩
  rw [hm]
  exact maxStepId_le_of_mem hm hs

/-- C4 (amended): `begin_undo_step` creates a step whose id (max existing
id + 1) is strictly greater than every existing id, then deletes exactly
those steps whose id is at most (new id − max_undo_steps), cascading their
captured operations; at most `max_undo_steps` steps remain afterwards.
This retention is an id window, not a count: when the live ids have gaps
(after empty-step garbage collection) it can delete steps even though the
step count does not exceed `max_undo_steps`. -/
theorem claim_C4_retention_is_id_window (db : DB) (name : String) (maxSteps : Nat)
    (h1 : (db.undo_steps.map Step.id).Nodup) (h2 : 1 ≤ maxSteps) :
    (∀ s ∈ db.undo_steps, s.id < (maxStepId db.undo_steps).getD 0 + 1) ∧
    (∀ s, s ∈ (begin_undo_step name maxSteps db).undo_steps ↔
      ((s ∈ db.undo_steps ∨ s = ⟨(maxStepId db.undo_steps).getD 0 + 1, name⟩) ∧
        (maxStepId db.undo_steps).getD 0 + 1 - maxSteps < s.id)) ∧
    (begin_undo_step name maxSteps db).undo_steps.length ≤ maxSteps ∧
    (∀ p ∈ (begin_undo_step name maxSteps db).undo_statements,
      p ∈ db.undo_statements) ∧
    (∀ p ∈ (begin_undo_step name maxSteps db).undo_statements,
      ∀ s ∈ db.undo_steps, p.1 = some s.id →
        (maxStepId db.undo_steps).getD 0 + 1 - maxSteps < s.id) := by
  have hlt : ∀ s ∈ db.undo_steps, s.id < (maxStepId db.undo_steps).getD 0 + 1 :=
    fun s hs => Nat.lt_succ_of_le (le_maxStepId_getD hs)
  refine ⟨hlt, ?_, ?_, ?_, ?_⟩
  · intro s
    simp only [begin_undo_step, List.mem_filter, List.mem_append, List.mem_singleton,
      decide_eq_true_eq]
    rw [Nat.not_le]
  · -- the retained ids are distinct and lie in an interval of size maxSteps
    set newId := (maxStepId db.undo_steps).getD 0 + 1 with hnew
    have hsub : (begin_undo_step name maxSteps db).undo_steps.Sublist
        (db.undo_steps ++ [⟨newId, name⟩]) := by
      simp only [begin_undo_step]
      exact List.filter_sublist _
    have hnd1 : ((db.undo_steps ++ [(⟨newId, name⟩ : Step)]).map Step.id).Nodup := by
      rw [List.map_append, List.nodup_append]
      refine ⟨h1, ?_, ?_⟩
      · simp
      · intro x hx hy
        rcases List.mem_map.mp hx with ⟨s, hs, rfl⟩
        simp only [List.map_cons, List.map_nil, List.mem_singleton] at hy
        exact Nat.ne_of_lt (hlt s hs) hy
    have hnd : ((begin_undo_step name maxSteps db).undo_steps.map Step.id).Nodup :=
      hnd1.sublist (hsub.map Step.id)
    have hbound : ∀ x ∈ (begin_undo_step name maxSteps db).undo_steps.map Step.id,
        x ∈ Finset.Ioc (newId - maxSteps) newId := by
      intro x hx
      rcases List.mem_map.mp hx with ⟨s, hs, rfl⟩
      simp only [begin_undo_step, List.mem_filter, List.mem_append, List.mem_singleton,
        decide_eq_true_eq] at hs
      obtain ⟨hmem, hcut⟩ := hs
      rw [Finset.mem_Ioc]
      refine ⟨Nat.lt_of_not_le hcut, ?_⟩
      rcases hmem with hmem | rfl
      · exact Nat.le_of_lt (hlt s hmem)
      · exact Nat.le_refl _
    have hlen : (begin_undo_step name maxSteps db).undo_steps.length
        = ((begin_undo_step name maxSteps db).undo_steps.map Step.id).length := by
      rw [List.length_map]
    rw [hlen, ← List.toFinset_card_of_nodup hnd]
    calc ((begin_undo_step name maxSteps db).undo_steps.map Step.id).toFinset.card
        ≤ (Finset.Ioc (newId - maxSteps) newId).card := by
          apply Finset.card_le_card
          intro x hx
          exact hbound x (List.mem_toFinset.mp hx)
      _ = newId - (newId - maxSteps) := Nat.card_Ioc _ _
      _ ≤ maxSteps := by omega
  · intro p hp
    simp only [begin_undo_step, List.mem_filter] at hp
    exact hp.1
  · intro p hp s hs hanchor
    by_contra hcut
    simp only [begin_undo_step, List.mem_filter] at hp
    have hdel : s ∈ (db.undo_steps ++
        [(⟨(maxStepId db.undo_steps).getD 0 + 1, name⟩ : Step)]).filter
        (fun x => decide (x.id ≤ (maxStepId db.undo_steps).getD 0 + 1 - maxSteps)) :=
      List.mem_filter.mpr
        ⟨List.mem_append_left _ hs, by simpa using Nat.le_of_not_lt hcut⟩
    have hany := hp.2
    rw [Bool.not_eq_true'] at hany
    have hno := List.any_eq_false.mp hany s hdel
    simp only [decide_eq_true_eq] at hno
    exact hno hanchor

/-- Counterexample to C4 as stated: with live step ids 1 and 5,
`begin_undo_step` with `max_undo_steps = 3` raises the count to 3, which
does not exceed 3, so the claim demands that no step be deleted and
exactly the old steps plus the new one remain; the code instead deletes
step 1 (its id is at most 6 − 3), leaving 2 steps. -/
theorem claim_C4_counterexample :
    cdbC4.undo_steps.length + 1 ≤ 3 ∧
    (begin_undo_step "c" 3 cdbC4).undo_steps.map Step.id = [5, 6] ∧
    ¬ (begin_undo_step "c" 3 cdbC4).undo_steps.length = cdbC4.undo_steps.length + 1 := by
  decide

/-- Witness for the amended C4 at the concrete gapped store. -/
theorem claim_C4_witness :
    (begin_undo_step "c" 3 cdbC4).undo_steps.length ≤ 3 :=
  (claim_C4_retention_is_id_window cdbC4 "c" 3 (by decide) (by decide)).2.2.1

/-- C7 (amended): a step with zero captured operations is deleted by
`initialize_undo`, which runs at the next store open — not by the next
`begin_undo_step` call.  Provided no captured operation carries a NULL
step anchor (SQL `NOT IN` keeps every step when one does), after
`initialize_undo` a step survives exactly when some captured operation is
anchored to it; the statements table is unchanged, since the deleted steps
had no statements to cascade. -/
theorem claim_C7_empty_steps_removed_at_open (db : DB)
    (h : ∀ p ∈ db.undo_statements, p.1.isSome = true) :
    (∀ s, s ∈ (initialize_undo false db).undo_steps ↔
      (s ∈ db.undo_steps ∧ some s.id ∈ db.undo_statements.map Prod.fst)) ∧
    (initialize_undo false db).undo_statements = db.undo_statements := by
  have hall : (db.undo_statements.map Prod.fst).all (fun a => a.isSome) = true := by
    rw [List.all_eq_true]
    intro a ha
    rcases List.mem_map.mp ha with ⟨p, hp, rfl⟩
    exact h p hp
  constructor
  · intro s
    simp only [initialize_undo, if_neg (by simp : ¬ (false = true)), List.mem_filter,
      decide_eq_true_eq, hall]
    constructor
    · rintro ⟨hs, hcond⟩
      refine ⟨hs, ?_⟩
      by_contra hnc
      exact hcond ⟨trivial, by simpa [List.elem_iff] using hnc⟩
    · rintro ⟨hs, hmem⟩
      refine ⟨hs, ?_⟩
      rintro ⟨-, hnc⟩
      exact hnc (by simpa [List.elem_iff] using hmem)
  · rfl

/-- Witness for the amended C7: at the concrete store, `initialize_undo`
deletes the empty step and keeps the populated one. -/
theorem claim_C7_witness :
    (⟨2, "r"⟩ : Step) ∉ (initialize_undo false wdbC7).undo_steps ∧
    (⟨1, "w"⟩ : Step) ∈ (initialize_undo false wdbC7).undo_steps := by
  have h := claim_C7_empty_steps_removed_at_open wdbC7 (by decide)
  constructor
  · intro hmem
    have := ((h.1 ⟨2, "r"⟩).mp hmem).2
    revert this
    decide
  · exact (h.1 ⟨1, "w"⟩).mpr ⟨by decide, by decide⟩

/-- Counterexample to C7 as stated: step 1 has zero captured operations,
yet it still exists after the next `begin_undo_step` call — the garbage
collection of empty steps happens at store open, not at `begin_undo_step`. -/
theorem claim_C7_counterexample :
    (∀ p ∈ cdbC7.undo_statements, ¬ p.1 = some 1) ∧
    (⟨1, "empty"⟩ : Step) ∈ (begin_undo_step "next" 128 cdbC7).undo_steps := by
  decide

theorem migRun_spec (l : List (String × Script)) (v : Nat) (d : MigData) :
    v ≤ (migRun l v d).2.1 ∧
    applyList (l.take ((migRun l v d).2.1 - v)) d = .ok (migRun l v d).2.2 ∧
    ((migRun l v d).1 = .ok () → (migRun l v d).2.1 = v + l.length) ∧
    (∀ e, (migRun l v d).1 = .error e →
      ∃ m, l.get? ((migRun l v d).2.1 - v) = some m ∧
        ∃ e2, m.2 (migRun l v d).2.2 = .error e2) := by
  induction l generalizing v d with
  | nil =>
    refine ⟨Nat.le_refl _, ?_, fun _ => rfl, fun e he => absurd he (by simp [migRun])⟩
    simp [migRun, applyList]
  | cons hd rest ih =>
    rcases hd with ⟨nm, script⟩
    cases hs : script d with
    | error e =>
      refine ⟨?_, ?_, ?_, ?_⟩
      · simp [migRun, hs]
      · simp [migRun, hs, applyList]
      · intro hok
        rw [show migRun ((nm, script) :: rest) v d
            = (.error ("migration " ++ nm ++ " failed (" ++ e ++ ")"), v, d) by
          simp [migRun, hs]] at hok
        cases hok
      · intro e2 herr
        refine ⟨(nm, script), ?_, e, ?_⟩
        · simp [migRun, hs]
        · simp [migRun, hs]
    | ok d2 =>
      have hred : migRun ((nm, script) :: rest) v d = migRun rest (v + 1) d2 := by
        simp [migRun, hs]
      rcases ih (v + 1) d2 with ⟨ihle, ihapp, ihok, iherr⟩
      have hle : v ≤ (migRun rest (v + 1) d2).2.1 :=
        Nat.le_trans (Nat.le_succ v) ihle
      have hsucc : (migRun rest (v + 1) d2).2.1 - v
          = ((migRun rest (v + 1) d2).2.1 - (v + 1)) + 1 := by omega
      refine ⟨?_, ?_, ?_, ?_⟩
      · rw [hred]; exact hle
      · rw [hred, hsucc]
        simp only [List.take_succ_cons, applyList, hs]
        exact ihapp
      · intro hok
        rw [hred] at hok ⊢
        rw [ihok hok, List.length_cons]
        omega
      · intro e2 herr
        rw [hred] at herr ⊢
        rcases iherr e2 herr with ⟨m, hm, e3, he3⟩
        refine ⟨m, ?_, e3, he3⟩
        rw [hsucc]
        simpa using hm

/-- C8: the migration runner applies exactly the not-yet-applied
migrations in ascending order; each migration commits together with its
version bump, so the persisted data always equals the initial data
transformed by the fully-committed ascending prefix (first conjunct); on
success the version reaches the last migration index and the returned
boolean says whether any migration ran — in particular a re-run after a
full success runs nothing and returns false; on failure the runner stopped
at the first failing migration: the persisted version names it as the next
unapplied one and its effects are absent from the persisted data. -/
theorem claim_C8_migration_runner (migs : List (String × Script)) (db : MigDB) :
    applyList ((migs.drop (db.version + 1)).take
        ((perform_migrations migs db).2.version - db.version)) db.data
      = .ok (perform_migrations migs db).2.data ∧
    db.version ≤ (perform_migrations migs db).2.version ∧
    (∀ b, (perform_migrations migs db).1 = .ok b →
      (perform_migrations migs db).2.version = max db.version (migs.length - 1) ∧
      (b = true ↔ db.version < migs.length - 1)) ∧
    (∀ e, (perform_migrations migs db).1 = .error e →
      ∃ m, migs.get? ((perform_migrations migs db).2.version + 1) = some m ∧
        ∃ e2, m.2 (perform_migrations migs db).2.data = .error e2) := by
  rcases hspec : migRun (migs.drop (db.version + 1)) db.version db.data with ⟨res, v2, d2⟩
  have hs := migRun_spec (migs.drop (db.version + 1)) db.version db.data
  rw [hspec] at hs
  dsimp only at hs
  rcases hs with ⟨hle, happ, hok, herr⟩
  cases res with
  | ok u =>
    cases u
    have hperf : perform_migrations migs db
        = (.ok (decide (db.version < migs.length - 1)), ⟨v2, d2⟩) := by
      simp [perform_migrations, hspec]
    rw [hperf]
    refine ⟨happ, hle, ?_, ?_⟩
    · intro b hb
      simp only [Except.ok.injEq] at hb
      constructor
      · have hv2 := hok rfl
        rw [List.length_drop] at hv2
        dsimp only
        rw [Nat.max_def]
        split <;> omega
      · rw [← hb]
        simp
    · intro e he
      cases he
  | error e0 =>
    have hperf : perform_migrations migs db = (.error e0, ⟨v2, d2⟩) := by
      simp [perform_migrations, hspec]
    rw [hperf]
    refine ⟨happ, hle, ?_, ?_⟩
    · intro b hb
      cases hb
    · intro e he
      simp only [Except.error.injEq] at he
      rcases herr e0 rfl with ⟨m, hm, e2, he2⟩
      refine ⟨m, ?_, e2, he2⟩
      dsimp only
      rw [List.get?_eq_getElem?] at hm ⊢
      rw [List.getElem?_drop] at hm
      have harith : db.version + 1 + (v2 - db.version) = v2 + 1 := by omega
      rw [harith] at hm
      exact hm

/-- Witness for C8: on a fresh store, the run stops at the failing
migration `two`; the persisted version names it as the next unapplied one
and it fails on the persisted data. -/
theorem claim_C8_witness :
    ∃ m, migsW.get? ((perform_migrations migsW migdbW).2.version + 1) = some m ∧
      ∃ e2, m.2 (perform_migrations migsW migdbW).2.data = .error e2 :=
  (claim_C8_migration_runner migsW migdbW).2.2.2 "migration two failed (boom)" rfl

/-- C1 fails on the code: after a step holding one successful update of
row 1 in a two-row table, `undo_last_step` does not succeed and the store
content differs from the content before `begin_step`.  The captured revert
statement (`UPDATE accounts SET ...` with no WHERE clause) addresses both
rows, making them identical, so its replay aborts on the UNIQUE
constraint; the repository test `undo_account_select` asserts exactly this
round trip. -/
theorem claim_C1_roundtrip_fails_on_update :
    (update .accounts ⟨some 1, 11⟩ (begin_undo_step "cmd" 128 rdbC1)).1 = .ok () ∧
    (undo_last_step rdbC1b).1 = .error "UNIQUE constraint failed" ∧
    ¬ (undo_last_step rdbC1b).2.store = rdbC1.store :=
  ⟨rfl, rfl, by decide⟩

/-- C2 is half right on the code: the captured inverse of an update does
carry the complete pre-update image together with the key (first
conjunct), but replaying it does not overwrite only row 1 while leaving
the other rows unchanged — the generated statement has no WHERE clause, so
with other rows present it aborts on the UNIQUE constraint and the table
keeps its post-update content (second and third conjuncts). -/
theorem claim_C2_replay_not_keyed_to_row :
    (update .accounts ⟨some 1, 31⟩ rdbC2).2.undo_statements
      = [(some 1, .setAllRows .accounts ⟨1, 30⟩)] ∧
    (execStmt (.setAllRows .accounts ⟨1, 30⟩) (update .accounts ⟨some 1, 31⟩ rdbC2).2).1
      = .error "UNIQUE constraint failed" ∧
    (execStmt (.setAllRows .accounts ⟨1, 30⟩) (update .accounts ⟨some 1, 31⟩ rdbC2).2).2.store
      = (update .accounts ⟨some 1, 31⟩ rdbC2).2.store :=
  ⟨rfl, rfl, rfl⟩

/-- Witness for C10 at a concrete store with an empty newest step. -/
theorem claim_C10_witness :
    get_last_undo_step wdbC10 = .ok "empty"
    ∧ (undo_last_step wdbC10).1 = .error "there is nothing to undo."
    ∧ (undo_last_step wdbC10).2 = { wdbC10 with fkEnabled := true } :=
  claim_C10_empty_top_step_disagreement wdbC10 ⟨2, "empty"⟩
    (by decide) (by decide) (by decide)

end Stingy
